import Mathlib

/-!
Verification of `fix_templates.py`, a one-shot maintenance script that
applies two global regex substitutions to each file in a hardcoded list.

The two substitutions, as written in the source, are
`re.sub(r'\\\\` + "`" + `', '` + "`" + `', content)` and
`re.sub(r'\\\\\\$', '$', content)`: at regex level the raw strings denote
the patterns "two literal backslashes followed by a backtick" and
"two literal backslashes followed by a dollar sign", each replaced by the
single final character.  `re.sub` scans left to right and replaces every
non-overlapping occurrence, which is modelled here by `substA`/`substB`
recursing over the character list.  File handling (read, transform, write,
per-file try/except, the driver loop) is modelled by `fix_template_literals`
and `runAll` over an explicit file-system state `FS`.
-/

/-- The backslash character. -/
def bs : Char := '\\'

/-- The dollar-sign character. -/
def ds : Char := '$'

/-- The backtick character (code point 96). -/
def bt : Char := Char.ofNat 96

/-- Does the list begin with the backtick pattern (backslash, backslash, backtick)? -/
def startsA : List Char → Bool
  | c1 :: c2 :: c3 :: _ => decide (c1 = bs) && decide (c2 = bs) && decide (c3 = bt)
  | _ => false

/-- Does the list begin with the dollar pattern (backslash, backslash, dollar)? -/
def startsB : List Char → Bool
  | c1 :: c2 :: c3 :: _ => decide (c1 = bs) && decide (c2 = bs) && decide (c3 = ds)
  | _ => false

/-- Model of `re.sub(r'\\\\` backtick `', '` backtick `', content)`: scan left to
right, replacing every non-overlapping occurrence of
backslash-backslash-backtick by a single backtick. -/
def substA : List Char → List Char
  | [] => []
  | [c] => [c]
  | [c1, c2] => [c1, c2]
  | c1 :: c2 :: c3 :: t =>
    if c1 = bs ∧ c2 = bs ∧ c3 = bt then bt :: substA t
    else c1 :: substA (c2 :: c3 :: t)

/-- Model of `re.sub(r'\\\\\\$', '$', content)`: scan left to right, replacing
every non-overlapping occurrence of backslash-backslash-dollar by a single
dollar sign. -/
def substB : List Char → List Char
  | [] => []
  | [c] => [c]
  | [c1, c2] => [c1, c2]
  | c1 :: c2 :: c3 :: t =>
    if c1 = bs ∧ c2 = bs ∧ c3 = ds then ds :: substB t
    else c1 :: substB (c2 :: c3 :: t)

/-- The in-memory transformation of one patch operation: substitution A
(backtick fix) followed by substitution B (dollar fix), as in the source. -/
def fixText (l : List Char) : List Char := substB (substA l)

/-- Does the list contain an occurrence of the backtick pattern anywhere? -/
def hasA : List Char → Bool
  | [] => false
  | c :: t => startsA (c :: t) || hasA t

/-- Does the list contain an occurrence of the dollar pattern anywhere? -/
def hasB : List Char → Bool
  | [] => false
  | c :: t => startsB (c :: t) || hasB t

/-- Number of replacements performed by substitution A on the given text. -/
def countA : List Char → Nat
  | c1 :: c2 :: c3 :: t =>
    if c1 = bs ∧ c2 = bs ∧ c3 = bt then countA t + 1 else countA (c2 :: c3 :: t)
  | _ => 0

/-- Number of replacements performed by substitution B on the given text. -/
def countB : List Char → Nat
  | c1 :: c2 :: c3 :: t =>
    if c1 = bs ∧ c2 = bs ∧ c3 = ds then countB t + 1 else countB (c2 :: c3 :: t)
  | _ => 0

theorem bs_ne_bt : bs ≠ bt := by decide

theorem bt_ne_bs : bt ≠ bs := by decide

theorem ds_ne_bs : ds ≠ bs := by decide

theorem bt_ne_ds : bt ≠ ds := by decide

theorem ds_ne_bt : ds ≠ bt := by decide

theorem bs_ne_ds : bs ≠ ds := by decide

theorem startsA_cons3 (c1 c2 c3 : Char) (t : List Char) :
    startsA (c1 :: c2 :: c3 :: t) = true ↔ (c1 = bs ∧ c2 = bs ∧ c3 = bt) := by
  simp [startsA, and_assoc]

theorem startsB_cons3 (c1 c2 c3 : Char) (t : List Char) :
    startsB (c1 :: c2 :: c3 :: t) = true ↔ (c1 = bs ∧ c2 = bs ∧ c3 = ds) := by
  simp [startsB, and_assoc]

theorem startsA_first_ne (c : Char) (t : List Char) (h : c ≠ bs) :
    startsA (c :: t) = false := by
  match t with
  | [] => rfl
  | [x] => rfl
  | x :: y :: t2 => simp [startsA, h]

theorem startsB_first_ne (c : Char) (t : List Char) (h : c ≠ bs) :
    startsB (c :: t) = false := by
  match t with
  | [] => rfl
  | [x] => rfl
  | x :: y :: t2 => simp [startsB, h]

theorem startsA_second_ne (c1 c2 : Char) (t : List Char) (h : c2 ≠ bs) :
    startsA (c1 :: c2 :: t) = false := by
  match t with
  | [] => rfl
  | x :: t2 => simp [startsA, h]

theorem startsB_second_ne (c1 c2 : Char) (t : List Char) (h : c2 ≠ bs) :
    startsB (c1 :: c2 :: t) = false := by
  match t with
  | [] => rfl
  | x :: t2 => simp [startsB, h]

theorem startsA_third_ne (c1 c2 c3 : Char) (t : List Char) (h : c3 ≠ bt) :
    startsA (c1 :: c2 :: c3 :: t) = false := by
  simp [startsA, h]

theorem startsB_third_ne (c1 c2 c3 : Char) (t : List Char) (h : c3 ≠ ds) :
    startsB (c1 :: c2 :: c3 :: t) = false := by
  simp [startsB, h]

theorem substA_match (t : List Char) : substA (bs :: bs :: bt :: t) = bt :: substA t := by
  simp [substA]

theorem substB_match (t : List Char) : substB (bs :: bs :: ds :: t) = ds :: substB t := by
  simp [substB]

theorem substA_nomatch (c1 c2 c3 : Char) (t : List Char) (h : ¬(c1 = bs ∧ c2 = bs ∧ c3 = bt)) :
    substA (c1 :: c2 :: c3 :: t) = c1 :: substA (c2 :: c3 :: t) := by
  simp only [substA, if_neg h]

theorem substB_nomatch (c1 c2 c3 : Char) (t : List Char) (h : ¬(c1 = bs ∧ c2 = bs ∧ c3 = ds)) :
    substB (c1 :: c2 :: c3 :: t) = c1 :: substB (c2 :: c3 :: t) := by
  simp only [substB, if_neg h]

theorem substA_peel (c : Char) (t : List Char) (h : startsA (c :: t) = false) :
    substA (c :: t) = c :: substA t := by
  match t with
  | [] => rfl
  | [x] => rfl
  | x :: y :: t2 =>
    refine substA_nomatch c x y t2 ?_
    intro hc
    rcases hc with ⟨e1, e2, e3⟩
    subst e1; subst e2; subst e3
    simp [startsA] at h

theorem substB_peel (c : Char) (t : List Char) (h : startsB (c :: t) = false) :
    substB (c :: t) = c :: substB t := by
  match t with
  | [] => rfl
  | [x] => rfl
  | x :: y :: t2 =>
    refine substB_nomatch c x y t2 ?_
    intro hc
    rcases hc with ⟨e1, e2, e3⟩
    subst e1; subst e2; subst e3
    simp [startsB] at h

theorem substA_append_pattern (p s : List Char) :
    substA (p ++ bs :: bs :: bt :: s) = substA p ++ bt :: substA s := by
  induction p using substA.induct with
  | case1 => rw [List.nil_append, substA_match]; rfl
  | case2 c =>
    have h1 : startsA (c :: bs :: bs :: bt :: s) = false :=
      startsA_third_ne c bs bs (bt :: s) bs_ne_bt
    simp only [List.cons_append, List.nil_append, substA_peel c _ h1, substA_match]
    rfl
  | case3 c1 c2 =>
    have h1 : startsA (c1 :: c2 :: bs :: bs :: bt :: s) = false :=
      startsA_third_ne c1 c2 bs (bs :: bt :: s) bs_ne_bt
    have h2 : startsA (c2 :: bs :: bs :: bt :: s) = false :=
      startsA_third_ne c2 bs bs (bt :: s) bs_ne_bt
    simp only [List.cons_append, List.nil_append, substA_peel c1 _ h1,
      substA_peel c2 _ h2, substA_match]
    rfl
  | case4 c1 c2 c3 t h ih =>
    rcases h with ⟨e1, e2, e3⟩
    subst e1; subst e2; subst e3
    simp only [List.cons_append, substA_match, ih, List.append_assoc]
  | case5 c1 c2 c3 t h ih =>
    simp only [List.cons_append] at ih ⊢
    rw [substA_nomatch c1 c2 c3 (t ++ bs :: bs :: bt :: s) h, ih,
      substA_nomatch c1 c2 c3 t h]
    simp

theorem substB_append_pattern (p s : List Char) :
    substB (p ++ bs :: bs :: ds :: s) = substB p ++ ds :: substB s := by
  induction p using substB.induct with
  | case1 => rw [List.nil_append, substB_match]; rfl
  | case2 c =>
    have h1 : startsB (c :: bs :: bs :: ds :: s) = false :=
      startsB_third_ne c bs bs (ds :: s) bs_ne_ds
    simp only [List.cons_append, List.nil_append, substB_peel c _ h1, substB_match]
    rfl
  | case3 c1 c2 =>
    have h1 : startsB (c1 :: c2 :: bs :: bs :: ds :: s) = false :=
      startsB_third_ne c1 c2 bs (bs :: ds :: s) bs_ne_ds
    have h2 : startsB (c2 :: bs :: bs :: ds :: s) = false :=
      startsB_third_ne c2 bs bs (ds :: s) bs_ne_ds
    simp only [List.cons_append, List.nil_append, substB_peel c1 _ h1,
      substB_peel c2 _ h2, substB_match]
    rfl
  | case4 c1 c2 c3 t h ih =>
    rcases h with ⟨e1, e2, e3⟩
    subst e1; subst e2; subst e3
    simp only [List.cons_append, substB_match, ih, List.append_assoc]
  | case5 c1 c2 c3 t h ih =>
    simp only [List.cons_append] at ih ⊢
    rw [substB_nomatch c1 c2 c3 (t ++ bs :: bs :: ds :: s) h, ih,
      substB_nomatch c1 c2 c3 t h]
    simp

theorem substA_id_of_not_hasA (l : List Char) (h : hasA l = false) : substA l = l := by
  induction l with
  | nil => rfl
  | cons c t ih =>
    have h2 : startsA (c :: t) = false ∧ hasA t = false := by
      simpa [hasA] using h
    rw [substA_peel c t h2.1, ih h2.2]

theorem substB_id_of_not_hasB (l : List Char) (h : hasB l = false) : substB l = l := by
  induction l with
  | nil => rfl
  | cons c t ih =>
    have h2 : startsB (c :: t) = false ∧ hasB t = false := by
      simpa [hasB] using h
    rw [substB_peel c t h2.1, ih h2.2]

theorem fixText_id (l : List Char) (ha : hasA l = false) (hb : hasB l = false) :
    fixText l = l := by
  unfold fixText
  rw [substA_id_of_not_hasA l ha, substB_id_of_not_hasB l hb]

theorem substA_head_ds (w r : List Char) (h : substA w = ds :: r) :
    ∃ w2, w = ds :: w2 := by
  match w with
  | [] => simp [substA] at h
  | [c] =>
    refine ⟨[], ?_⟩
    simp only [substA, List.cons.injEq] at h
    rw [h.1]
  | [c1, c2] =>
    refine ⟨[c2], ?_⟩
    simp only [substA, List.cons.injEq] at h
    rw [h.1]
  | c1 :: c2 :: c3 :: t =>
    by_cases hc : c1 = bs ∧ c2 = bs ∧ c3 = bt
    · rcases hc with ⟨e1, e2, e3⟩
      subst e1; subst e2; subst e3
      rw [substA_match t] at h
      exact absurd (List.head_eq_of_cons_eq h) bt_ne_ds
    · rw [substA_nomatch c1 c2 c3 t hc] at h
      exact ⟨c2 :: c3 :: t, by rw [List.head_eq_of_cons_eq h]⟩

theorem substB_head_bt (w r : List Char) (h : substB w = bt :: r) :
    ∃ w2, w = bt :: w2 := by
  match w with
  | [] => simp [substB] at h
  | [c] =>
    refine ⟨[], ?_⟩
    simp only [substB, List.cons.injEq] at h
    rw [h.1]
  | [c1, c2] =>
    refine ⟨[c2], ?_⟩
    simp only [substB, List.cons.injEq] at h
    rw [h.1]
  | c1 :: c2 :: c3 :: t =>
    by_cases hc : c1 = bs ∧ c2 = bs ∧ c3 = ds
    · rcases hc with ⟨e1, e2, e3⟩
      subst e1; subst e2; subst e3
      rw [substB_match t] at h
      exact absurd (List.head_eq_of_cons_eq h) ds_ne_bt
    · rw [substB_nomatch c1 c2 c3 t hc] at h
      exact ⟨c2 :: c3 :: t, by rw [List.head_eq_of_cons_eq h]⟩

theorem substA_two_head (m r : List Char) (h : substA m = bs :: ds :: r) :
    ∃ m2, m = bs :: ds :: m2 := by
  match m with
  | [] => simp [substA] at h
  | [c] => simp only [substA] at h; exact absurd (List.tail_eq_of_cons_eq h) (by simp)
  | [c1, c2] =>
    simp only [substA, List.cons.injEq] at h
    exact ⟨[], by rw [h.1, h.2.1]⟩
  | c1 :: c2 :: c3 :: t =>
    by_cases hc : c1 = bs ∧ c2 = bs ∧ c3 = bt
    · rcases hc with ⟨e1, e2, e3⟩
      subst e1; subst e2; subst e3
      rw [substA_match t] at h
      exact absurd (List.head_eq_of_cons_eq h) bt_ne_bs
    · rw [substA_nomatch c1 c2 c3 t hc] at h
      have h1 : c1 = bs := List.head_eq_of_cons_eq h
      obtain ⟨w2, hw⟩ := substA_head_ds (c2 :: c3 :: t) r (List.tail_eq_of_cons_eq h)
      have h2 : c2 = ds := List.head_eq_of_cons_eq hw
      exact ⟨c3 :: t, by rw [h1, h2]⟩

theorem substB_two_head (m r : List Char) (h : substB m = bs :: bt :: r) :
    ∃ m2, m = bs :: bt :: m2 := by
  match m with
  | [] => simp [substB] at h
  | [c] => simp only [substB] at h; exact absurd (List.tail_eq_of_cons_eq h) (by simp)
  | [c1, c2] =>
    simp only [substB, List.cons.injEq] at h
    exact ⟨[], by rw [h.1, h.2.1]⟩
  | c1 :: c2 :: c3 :: t =>
    by_cases hc : c1 = bs ∧ c2 = bs ∧ c3 = ds
    · rcases hc with ⟨e1, e2, e3⟩
      subst e1; subst e2; subst e3
      rw [substB_match t] at h
      exact absurd (List.head_eq_of_cons_eq h) ds_ne_bs
    · rw [substB_nomatch c1 c2 c3 t hc] at h
      have h1 : c1 = bs := List.head_eq_of_cons_eq h
      obtain ⟨w2, hw⟩ := substB_head_bt (c2 :: c3 :: t) r (List.tail_eq_of_cons_eq h)
      have h2 : c2 = bt := List.head_eq_of_cons_eq hw
      exact ⟨c3 :: t, by rw [h1, h2]⟩

theorem startsA_transfer (c : Char) (m : List Char) (h : startsA (c :: substB m) = true) :
    startsA (c :: m) = true := by
  cases hw : substB m with
  | nil => rw [hw] at h; simp [startsA] at h
  | cons d1 w1 =>
    cases w1 with
    | nil => rw [hw] at h; simp [startsA] at h
    | cons d2 w2 =>
      rw [hw, startsA_cons3] at h
      obtain ⟨e1, e2, e3⟩ := h
      rw [e2, e3] at hw
      obtain ⟨m2, hm⟩ := substB_two_head m w2 hw
      rw [hm, startsA_cons3]
      exact ⟨e1, rfl, rfl⟩

theorem startsB_transfer (c : Char) (m : List Char) (h : startsB (c :: substA m) = true) :
    startsB (c :: m) = true := by
  cases hw : substA m with
  | nil => rw [hw] at h; simp [startsB] at h
  | cons d1 w1 =>
    cases w1 with
    | nil => rw [hw] at h; simp [startsB] at h
    | cons d2 w2 =>
      rw [hw, startsB_cons3] at h
      obtain ⟨e1, e2, e3⟩ := h
      rw [e2, e3] at hw
      obtain ⟨m2, hm⟩ := substA_two_head m w2 hw
      rw [hm, startsB_cons3]
      exact ⟨e1, rfl, rfl⟩

theorem substB_keeps_bt_head (t : List Char) : substB (bt :: t) = bt :: substB t :=
  substB_peel bt t (startsB_first_ne bt t bt_ne_bs)

theorem substA_keeps_ds_head (t : List Char) : substA (ds :: t) = ds :: substA t :=
  substA_peel ds t (startsA_first_ne ds t ds_ne_bs)

theorem substB_on_apattern (t : List Char) :
    substB (bs :: bs :: bt :: t) = bs :: bs :: bt :: substB t := by
  rw [substB_peel bs _ (startsB_third_ne bs bs bt t bt_ne_ds),
    substB_peel bs _ (startsB_second_ne bs bt t bt_ne_bs),
    substB_keeps_bt_head]

theorem substA_on_bpattern (t : List Char) :
    substA (bs :: bs :: ds :: t) = bs :: bs :: ds :: substA t := by
  rw [substA_peel bs _ (startsA_third_ne bs bs ds t ds_ne_bt),
    substA_peel bs _ (startsA_second_ne bs ds t ds_ne_bs),
    substA_keeps_ds_head]

theorem substAB_comm (l : List Char) : substA (substB l) = substB (substA l) := by
  induction l using substA.induct with
  | case1 => rfl
  | case2 c => rfl
  | case3 c1 c2 => rfl
  | case4 c1 c2 c3 t h ih =>
    rcases h with ⟨e1, e2, e3⟩
    subst e1; subst e2; subst e3
    rw [substB_on_apattern, substA_match, substA_match, substB_keeps_bt_head, ih]
  | case5 c1 c2 c3 t h ih =>
    by_cases hb : c1 = bs ∧ c2 = bs ∧ c3 = ds
    · rcases hb with ⟨e1, e2, e3⟩
      subst e1; subst e2; subst e3
      rw [substB_match, substA_keeps_ds_head, substA_on_bpattern, substB_match]
      have key : substA (substB t) = substB (substA t) := by
        rw [substB_peel bs _ (startsB_second_ne bs ds t ds_ne_bs),
          substB_peel ds _ (startsB_first_ne ds t ds_ne_bs),
          substA_peel bs _ (startsA_second_ne bs ds (substB t) ds_ne_bs),
          substA_peel ds _ (startsA_first_ne ds (substB t) ds_ne_bs),
          substA_peel bs _ (startsA_second_ne bs ds t ds_ne_bs),
          substA_peel ds _ (startsA_first_ne ds t ds_ne_bs),
          substB_peel bs _ (startsB_second_ne bs ds (substA t) ds_ne_bs),
          substB_peel ds _ (startsB_first_ne ds (substA t) ds_ne_bs)] at ih
        simpa using ih
      rw [key]
    · have hsa : startsA (c1 :: c2 :: c3 :: t) = false := by
        cases hv : startsA (c1 :: c2 :: c3 :: t) with
        | false => rfl
        | true => exact absurd ((startsA_cons3 c1 c2 c3 t).mp hv) h
      have hsb : startsB (c1 :: c2 :: c3 :: t) = false := by
        cases hv : startsB (c1 :: c2 :: c3 :: t) with
        | false => rfl
        | true => exact absurd ((startsB_cons3 c1 c2 c3 t).mp hv) hb
      have hsa2 : startsA (c1 :: substB (c2 :: c3 :: t)) = false := by
        cases hv : startsA (c1 :: substB (c2 :: c3 :: t)) with
        | false => rfl
        | true =>
          have := startsA_transfer c1 (c2 :: c3 :: t) hv
          rw [this] at hsa
          exact absurd hsa (by simp)
      have hsb2 : startsB (c1 :: substA (c2 :: c3 :: t)) = false := by
        cases hv : startsB (c1 :: substA (c2 :: c3 :: t)) with
        | false => rfl
        | true =>
          have := startsB_transfer c1 (c2 :: c3 :: t) hv
          rw [this] at hsb
          exact absurd hsb (by simp)
      rw [substB_peel c1 _ hsb, substA_peel c1 _ hsa2, ih,
        substA_nomatch c1 c2 c3 t h, substB_peel c1 _ hsb2]


theorem countA_match (t : List Char) : countA (bs :: bs :: bt :: t) = countA t + 1 := by
  simp [countA]

theorem countB_match (t : List Char) : countB (bs :: bs :: ds :: t) = countB t + 1 := by
  simp [countB]

theorem countA_nomatch (c1 c2 c3 : Char) (t : List Char) (h : ¬(c1 = bs ∧ c2 = bs ∧ c3 = bt)) :
    countA (c1 :: c2 :: c3 :: t) = countA (c2 :: c3 :: t) := by
  simp only [countA, if_neg h]

theorem countB_nomatch (c1 c2 c3 : Char) (t : List Char) (h : ¬(c1 = bs ∧ c2 = bs ∧ c3 = ds)) :
    countB (c1 :: c2 :: c3 :: t) = countB (c2 :: c3 :: t) := by
  simp only [countB, if_neg h]

theorem substA_length (l : List Char) :
    (substA l).length + 2 * countA l = l.length := by
  induction l using substA.induct with
  | case1 => rfl
  | case2 c => rfl
  | case3 c1 c2 => rfl
  | case4 c1 c2 c3 t h ih =>
    rcases h with ⟨e1, e2, e3⟩
    subst e1; subst e2; subst e3
    rw [substA_match, countA_match]
    simp only [List.length_cons]
    omega
  | case5 c1 c2 c3 t h ih =>
    rw [substA_nomatch c1 c2 c3 t h, countA_nomatch c1 c2 c3 t h]
    simp only [List.length_cons] at ih ⊢
    omega

theorem substB_length (l : List Char) :
    (substB l).length + 2 * countB l = l.length := by
  induction l using substB.induct with
  | case1 => rfl
  | case2 c => rfl
  | case3 c1 c2 => rfl
  | case4 c1 c2 c3 t h ih =>
    rcases h with ⟨e1, e2, e3⟩
    subst e1; subst e2; subst e3
    rw [substB_match, countB_match]
    simp only [List.length_cons]
    omega
  | case5 c1 c2 c3 t h ih =>
    rw [substB_nomatch c1 c2 c3 t h, countB_nomatch c1 c2 c3 t h]
    simp only [List.length_cons] at ih ⊢
    omega

theorem substA_sublist (l : List Char) : List.Sublist (substA l) l := by
  induction l using substA.induct with
  | case1 => exact List.Sublist.refl []
  | case2 c => exact List.Sublist.refl [c]
  | case3 c1 c2 => exact List.Sublist.refl [c1, c2]
  | case4 c1 c2 c3 t h ih =>
    rcases h with ⟨e1, e2, e3⟩
    subst e1; subst e2; subst e3
    rw [substA_match]
    exact List.Sublist.cons bs (List.Sublist.cons bs (List.Sublist.cons₂ bt ih))
  | case5 c1 c2 c3 t h ih =>
    rw [substA_nomatch c1 c2 c3 t h]
    exact List.Sublist.cons₂ c1 ih

theorem substB_sublist (l : List Char) : List.Sublist (substB l) l := by
  induction l using substB.induct with
  | case1 => exact List.Sublist.refl []
  | case2 c => exact List.Sublist.refl [c]
  | case3 c1 c2 => exact List.Sublist.refl [c1, c2]
  | case4 c1 c2 c3 t h ih =>
    rcases h with ⟨e1, e2, e3⟩
    subst e1; subst e2; subst e3
    rw [substB_match]
    exact List.Sublist.cons bs (List.Sublist.cons bs (List.Sublist.cons₂ ds ih))
  | case5 c1 c2 c3 t h ih =>
    rw [substB_nomatch c1 c2 c3 t h]
    exact List.Sublist.cons₂ c1 ih

theorem substA_count (c : Char) (hc : c ≠ bs) (l : List Char) :
    List.count c (substA l) = List.count c l := by
  induction l using substA.induct with
  | case1 => rfl
  | case2 c2 => rfl
  | case3 c1 c2 => rfl
  | case4 c1 c2 c3 t h ih =>
    rcases h with ⟨e1, e2, e3⟩
    subst e1; subst e2; subst e3
    rw [substA_match]
    simp only [List.count_cons, ih, beq_iff_eq]
    have h1 : ¬(bs = c) := fun e => hc e.symm
    simp [h1]
  | case5 c1 c2 c3 t h ih =>
    rw [substA_nomatch c1 c2 c3 t h]
    simp only [List.count_cons, ih]

theorem substB_count (c : Char) (hc : c ≠ bs) (l : List Char) :
    List.count c (substB l) = List.count c l := by
  induction l using substB.induct with
  | case1 => rfl
  | case2 c2 => rfl
  | case3 c1 c2 => rfl
  | case4 c1 c2 c3 t h ih =>
    rcases h with ⟨e1, e2, e3⟩
    subst e1; subst e2; subst e3
    rw [substB_match]
    simp only [List.count_cons, ih, beq_iff_eq]
    have h1 : ¬(bs = c) := fun e => hc e.symm
    simp [h1]
  | case5 c1 c2 c3 t h ih =>
    rw [substB_nomatch c1 c2 c3 t h]
    simp only [List.count_cons, ih]

/-- Model of the file system visible to the script: the text of each file
(`none` for a missing file), plus injected failure modes — an error raised
while opening/decoding a file for reading, and an error raised while the
file is open for writing.  A write failure happens after `open(.., 'w')`
has truncated the file, so the file is left empty in that case. -/
structure FS where
  files : String → Option (List Char)
  readErr : String → Option String
  writeErr : String → Option String

/-- Model of `open(filename, 'r', encoding='utf-8')` followed by `f.read()`:
produces the content, or an error (missing file, permission, decode). -/
def readFile (fs : FS) (p : String) : Except String (List Char) :=
  match fs.readErr p with
  | some e => Except.error e
  | none =>
    match fs.files p with
    | some c => Except.ok c
    | none => Except.error ("No such file or directory: " ++ p)

/-- Model of `open(filename, 'w', encoding='utf-8')` followed by `f.write(content)`:
on success the file holds the new content; on an injected write failure the
file was truncated by the open and the error propagates to the handler. -/
def writeFile (fs : FS) (p : String) (c : List Char) : FS × Option String :=
  match fs.writeErr p with
  | some e => (⟨fun q => if q = p then some [] else fs.files q, fs.readErr, fs.writeErr⟩, some e)
  | none => (⟨fun q => if q = p then some c else fs.files q, fs.readErr, fs.writeErr⟩, none)

/-- Model of `fix_template_literals(filename)`: read, apply the two
substitutions, write back, print `Fixed <filename>`; any error along the
way is caught by the `except` clause, which prints
`Error fixing <filename>: <e>` instead.  The second component is the list
of console lines the call prints. -/
def fix_template_literals (fs : FS) (p : String) : FS × List String :=
  match readFile fs p with
  | Except.error e => (fs, ["Error fixing " ++ p ++ ": " ++ e])
  | Except.ok content =>
    match writeFile fs p (fixText content) with
    | (fs2, some e) => (fs2, ["Error fixing " ++ p ++ ": " ++ e])
    | (fs2, none) => (fs2, ["Fixed " ++ p])

/-- The hardcoded list of six target files from `__main__`. -/
def targetFiles : List String :=
  ["src/api-server.ts",
   "src/backfill/utils.ts",
   "src/jetstream-collector-enhanced.ts",
   "src/production-test.ts",
   "src/startup-validator.ts",
   "src/strategies.ts"]

/-- Model of the driver loop `for filename in files: fix_template_literals(filename)`:
processes the paths in order, threading the file system and collecting all
console output. -/
def runAll (fs : FS) : List String → FS × List String
  | [] => (fs, [])
  | p :: rest =>
    let r := fix_template_literals fs p
    let r2 := runAll r.1 rest
    (r2.1, r.2 ++ r2.2)

/-- Model of running the script: the driver applied to the six hardcoded paths. -/
def mainRun (fs : FS) : FS × List String := runAll fs targetFiles

/-- The per-file console contract: the single line printed for a path is
either the success line or an error line naming that path. -/
def lineFor (line p : String) : Prop :=
  line = "Fixed " ++ p ∨ ∃ e, line = "Error fixing " ++ p ++ ": " ++ e

theorem patch_read_error (fs : FS) (p e : String) (h : readFile fs p = Except.error e) :
    fix_template_literals fs p = (fs, ["Error fixing " ++ p ++ ": " ++ e]) := by
  simp [fix_template_literals, h]

theorem patch_ok_write_ok (fs : FS) (p : String) (c : List Char)
    (h : readFile fs p = Except.ok c) (hw : fs.writeErr p = none) :
    fix_template_literals fs p =
      (⟨fun q => if q = p then some (fixText c) else fs.files q, fs.readErr, fs.writeErr⟩,
       ["Fixed " ++ p]) := by
  simp [fix_template_literals, h, writeFile, hw]

theorem patch_ok_write_err (fs : FS) (p e : String) (c : List Char)
    (h : readFile fs p = Except.ok c) (hw : fs.writeErr p = some e) :
    fix_template_literals fs p =
      (⟨fun q => if q = p then some [] else fs.files q, fs.readErr, fs.writeErr⟩,
       ["Error fixing " ++ p ++ ": " ++ e]) := by
  simp [fix_template_literals, h, writeFile, hw]

theorem patch_line (fs : FS) (p : String) :
    ∃ line, (fix_template_literals fs p).2 = [line] ∧ lineFor line p := by
  cases hr : readFile fs p with
  | error e =>
    rw [patch_read_error fs p e hr]
    exact ⟨_, rfl, Or.inr ⟨e, rfl⟩⟩
  | ok c =>
    cases hw : fs.writeErr p with
    | none =>
      rw [patch_ok_write_ok fs p c hr hw]
      exact ⟨_, rfl, Or.inl rfl⟩
    | some e =>
      rw [patch_ok_write_err fs p e c hr hw]
      exact ⟨_, rfl, Or.inr ⟨e, rfl⟩⟩

theorem runAll_shape (ps : List String) : ∀ fs : FS,
    ∃ ls : List String, (runAll fs ps).2 = ls ∧ List.Forall₂ lineFor ls ps := by
  induction ps with
  | nil => exact fun fs => ⟨[], rfl, List.Forall₂.nil⟩
  | cons p rest ih =>
    intro fs
    obtain ⟨l, hl, al⟩ := patch_line fs p
    obtain ⟨ls, hls, als⟩ := ih (fix_template_literals fs p).1
    refine ⟨l :: ls, ?_, List.Forall₂.cons al als⟩
    simp [runAll, hl, hls]

/-- Demo file system used by witnesses: one target file holding the given
content, no injected errors. -/
def demoFS (c : List Char) : FS :=
  ⟨fun q => if q = "src/strategies.ts" then some c else none, fun _ => none, fun _ => none⟩

theorem demoFS_read (c : List Char) :
    readFile (demoFS c) "src/strategies.ts" = Except.ok c := by
  simp [readFile, demoFS]

/-- Counterexample to claim C1: the two-character sequence backslash-backtick
is not rewritten by substitution A; the regex pattern requires two
backslashes, so the input (backslash, backtick) is left unchanged rather
than becoming a single backtick. -/
theorem c1_counterexample : substA [bs, bt] = [bs, bt] ∧ substA [bs, bt] ≠ [bt] := by
  constructor
  · decide
  · decide

/-- Claim C1 (amended): every occurrence of the THREE-character sequence
backslash-backslash-backtick is rewritten by substitution A to a single
bare backtick at that position, with the surrounding text transformed
independently and no other characters altered; in particular the minimal
pattern itself maps to a single backtick. -/
theorem c1_three_char_backtick_rewrite :
    (∀ p s : List Char, substA (p ++ bs :: bs :: bt :: s) = substA p ++ bt :: substA s) ∧
    substA [bs, bs, bt] = [bt] :=
  ⟨substA_append_pattern, by decide⟩

/-- Counterexample to claim C2: on the input (backslash, backslash, backtick)
the patch transformation does not produce (backslash, backtick); the whole
three-character window is matched, so no leading backslash remains. -/
theorem c2_counterexample : fixText [bs, bs, bt] ≠ [bs, bt] := by decide

/-- Claim C2 (amended): the input (backslash, backslash, backtick) is wholly
matched by substitution A, and the patch transformation yields the
single-character output backtick. -/
theorem c2_whole_window_replaced : fixText [bs, bs, bt] = [bt] := by decide

/-- Counterexample to claim C3: the transformation is not idempotent.  On the
input of four backslashes followed by a backtick, one application leaves
(backslash, backslash, backtick) — a fresh match — and a second
application rewrites it again. -/
theorem c3_counterexample :
    fixText (fixText [bs, bs, bs, bs, bt]) ≠ fixText [bs, bs, bs, bs, bt] := by decide

/-- Claim C3 (amended): applying the transformation twice yields the same
result as applying it once for every input text for which one application
leaves no occurrence of either escaped sequence. -/
theorem c3_idempotent_when_settled (l : List Char) (ha : hasA (fixText l) = false)
    (hb : hasB (fixText l) = false) : fixText (fixText l) = fixText l :=
  fixText_id (fixText l) ha hb

/-- Witness for the amended claim C3 at the concrete input
(backslash, backslash, backtick). -/
theorem c3_witness :
    hasA (fixText [bs, bs, bt]) = false ∧ hasB (fixText [bs, bs, bt]) = false ∧
    fixText (fixText [bs, bs, bt]) = fixText [bs, bs, bt] :=
  ⟨by decide, by decide, c3_idempotent_when_settled [bs, bs, bt] (by decide) (by decide)⟩

/-- Claim C4: the two substitution passes commute — applying substitution A
then substitution B yields the same result as applying B then A, for every
input text. -/
theorem c4_substitutions_commute (l : List Char) :
    substB (substA l) = substA (substB l) :=
  (substAB_comm l).symm

/-- Claim C5: every occurrence of the three-character sequence
backslash-backslash-dollar is rewritten by substitution B to a single bare
dollar sign at that position; in particular the minimal input of two
backslashes followed by a dollar sign yields the single-character output
dollar sign. -/
theorem c5_dollar_rewrite :
    (∀ p s : List Char, substB (p ++ bs :: bs :: ds :: s) = substB p ++ ds :: substB s) ∧
    fixText [bs, bs, ds] = [ds] :=
  ⟨substB_append_pattern, by decide⟩

/-- Claim C6: for every input text containing no occurrence of either
pattern, the patch transformation is the identity, and the file is written
back identical to its input. -/
theorem c6_identity_when_no_pattern (c : List Char) (ha : hasA c = false)
    (hb : hasB c = false) :
    fixText c = c ∧
    ∀ (fs : FS) (p : String), fs.readErr p = none → fs.files p = some c →
      fs.writeErr p = none → (fix_template_literals fs p).1.files p = some c := by
  refine ⟨fixText_id c ha hb, ?_⟩
  intro fs p hre hf hwe
  have hr : readFile fs p = Except.ok c := by simp [readFile, hre, hf]
  rw [patch_ok_write_ok fs p c hr hwe]
  simp [fixText_id c ha hb]

/-- Witness for claim C6 at the one-character pattern-free content and a
concrete file system. -/
theorem c6_witness :
    fixText ['a'] = ['a'] ∧
    (fix_template_literals (demoFS ['a']) "src/strategies.ts").1.files "src/strategies.ts" =
      some ['a'] := by
  have h := c6_identity_when_no_pattern ['a'] (by decide) (by decide)
  exact ⟨h.1, h.2 (demoFS ['a']) "src/strategies.ts" rfl (by simp [demoFS]) rfl⟩

/-- Claim C7: for every file-system state — in particular whatever errors
occur on individual files — the driver invokes the patch operation on all
six hardcoded paths in order, and each invocation reports exactly one
console line naming its own path (success or caught error), so no error
ever aborts the batch. -/
theorem c7_driver_runs_all_six (fs : FS) :
    ∃ l1 l2 l3 l4 l5 l6 : String,
      (mainRun fs).2 = [l1, l2, l3, l4, l5, l6] ∧
      lineFor l1 "src/api-server.ts" ∧ lineFor l2 "src/backfill/utils.ts" ∧
      lineFor l3 "src/jetstream-collector-enhanced.ts" ∧
      lineFor l4 "src/production-test.ts" ∧
      lineFor l5 "src/startup-validator.ts" ∧ lineFor l6 "src/strategies.ts" := by
  obtain ⟨ls, hls, hfa⟩ := runAll_shape targetFiles fs
  simp only [targetFiles] at hfa
  rcases hfa with _ | ⟨a1, _ | ⟨a2, _ | ⟨a3, _ | ⟨a4, _ | ⟨a5, _ | ⟨a6, hnil⟩⟩⟩⟩⟩⟩
  cases hnil
  exact ⟨_, _, _, _, _, _, hls, a1, a2, a3, a4, a5, a6⟩

/-- Claim C8: if the patch operation fails during reading (before the write
begins) the file is left unchanged in its original state; if reading and
writing both succeed the file holds exactly the transformed content. -/
theorem c8_original_or_transformed (fs : FS) (p : String) :
    (∀ e, readFile fs p = Except.error e → (fix_template_literals fs p).1 = fs) ∧
    (∀ c, readFile fs p = Except.ok c → fs.writeErr p = none →
      (fix_template_literals fs p).1.files p = some (fixText c)) := by
  constructor
  · intro e he
    rw [patch_read_error fs p e he]
  · intro c hc hw
    rw [patch_ok_write_ok fs p c hc hw]
    simp

/-- Witness for claim C8: on a concrete file system where reading and writing
succeed, the file ends up holding the transformed content. -/
theorem c8_witness :
    (fix_template_literals (demoFS [bs, bs, bt]) "src/strategies.ts").1.files
      "src/strategies.ts" = some (fixText [bs, bs, bt]) :=
  (c8_original_or_transformed (demoFS [bs, bs, bt]) "src/strategies.ts").2
    [bs, bs, bt] (demoFS_read [bs, bs, bt]) rfl

/-- Claim C9: each invocation of the patch operation emits exactly one
console line — `Fixed <path>` when reading, transforming and writing all
succeed, and `Error fixing <path>: <message>` when any step fails. -/
theorem c9_exactly_one_line (fs : FS) (p : String) :
    (∃ line, (fix_template_literals fs p).2 = [line]) ∧
    (∀ c, readFile fs p = Except.ok c → fs.writeErr p = none →
      (fix_template_literals fs p).2 = ["Fixed " ++ p]) ∧
    (∀ e, readFile fs p = Except.error e →
      (fix_template_literals fs p).2 = ["Error fixing " ++ p ++ ": " ++ e]) ∧
    (∀ c e, readFile fs p = Except.ok c → fs.writeErr p = some e →
      (fix_template_literals fs p).2 = ["Error fixing " ++ p ++ ": " ++ e]) := by
  refine ⟨?_, ?_, ?_, ?_⟩
  · obtain ⟨l, hl, _⟩ := patch_line fs p
    exact ⟨l, hl⟩
  · intro c hc hw
    rw [patch_ok_write_ok fs p c hc hw]
  · intro e he
    rw [patch_read_error fs p e he]
  · intro c e hc hw
    rw [patch_ok_write_err fs p e c hc hw]

/-- Witness for claim C9: the success line on a concrete file system, and the
error line on the empty file system where the file is missing. -/
theorem c9_witness :
    (fix_template_literals (demoFS ['a']) "src/strategies.ts").2 =
      ["Fixed " ++ "src/strategies.ts"] ∧
    (fix_template_literals (FS.mk (fun _ => none) (fun _ => none) (fun _ => none))
        "src/api-server.ts").2 =
      ["Error fixing " ++ "src/api-server.ts" ++ ": " ++
        ("No such file or directory: " ++ "src/api-server.ts")] :=
  ⟨(c9_exactly_one_line (demoFS ['a']) "src/strategies.ts").2.1 ['a']
      (demoFS_read ['a']) rfl,
   (c9_exactly_one_line (FS.mk (fun _ => none) (fun _ => none) (fun _ => none))
      "src/api-server.ts").2.2.1 ("No such file or directory: " ++ "src/api-server.ts") rfl⟩

/-- Claim C10: the output of the patch transformation is a subsequence of the
input obtained solely by deleting backslash characters: each replacement
removes exactly two backslashes, the output length is the input length
minus twice the number of matches, it never exceeds the input length, and
the multiplicity of every non-backslash character is preserved. -/
theorem c10_deletes_only_backslashes (l : List Char) :
    List.Sublist (fixText l) l ∧
    (fixText l).length + 2 * (countA l + countB (substA l)) = l.length ∧
    (fixText l).length ≤ l.length ∧
    (∀ c : Char, c ≠ bs → List.count c (fixText l) = List.count c l) := by
  have hA := substA_length l
  have hB := substB_length (substA l)
  refine ⟨(substB_sublist (substA l)).trans (substA_sublist l), ?_, ?_, ?_⟩
  · unfold fixText
    omega
  · unfold fixText
    omega
  · intro c hc
    unfold fixText
    rw [substB_count c hc (substA l), substA_count c hc l]

/-- Witness for claim C10 at a concrete input and non-backslash character. -/
theorem c10_witness :
    'a' ≠ bs ∧
    List.count 'a' (fixText [bs, bs, bt, 'a']) = List.count 'a' [bs, bs, bt, 'a'] :=
  ⟨by decide, (c10_deletes_only_backslashes [bs, bs, bt, 'a']).2.2.2 'a' (by decide)⟩
